import Mathlib

/-!
Shallow embedding of the open_agb_firm patch core:
`src/source/arm11/buffer.c` (buffered reader) and `src/source/arm11/patch.c`
(IPS engine, UPS engine, varint decoder, dispatcher).

Files are modelled as in-memory byte lists with a read position; the FatFs
wrappers `fSize`/`fTell`/`fRead`/`fLseek` act on that state and never fail.
The ROM image (a raw memory region at `ROM_LOC` in the source) is modelled as
a total function from addresses to byte values.  The `Result` codes are the
subset of `oaf_error_codes.h` codes that the patch core uses, as they appear
in the two translated source files.
-/

namespace OpenAGB

/-- Result codes used by the patch core (as named in patch.c / buffer.c). -/
inductive Result where
  | RES_OK
  | RES_OUT_OF_MEM
  | RES_OUT_OF_RANGE
  | RES_INVALID_ARG
  | RES_INVALID_PATCH
deriving DecidableEq, Repr

/-- An open file: its byte contents and the current read position. -/
structure FileState where
  data : List Nat
  pos : Nat
deriving DecidableEq, Repr

/-- fSize: total size of the file in bytes. -/
def fSize (fs : FileState) : Nat := fs.data.length

/-- fTell: current read position of the file. -/
def fTell (fs : FileState) : Nat := fs.pos

/-- fLseek: set the read position of the file (always succeeds in the model). -/
def fLseek (fs : FileState) (off : Nat) : FileState := { fs with pos := off }

/-- fRead of `n` bytes from the current position: returns the bytes actually
read and advances the position by that many bytes. -/
def fRead (fs : FileState) (n : Nat) : List Nat × FileState :=
  let bytes := (fs.data.drop fs.pos).take n
  (bytes, { fs with pos := fs.pos + bytes.length })

/-- The Buffer structure of buffer.h: resident bytes, current window size,
next unread index, and the fixed capacity. -/
structure Buffer where
  buffer : List Nat
  bufferSize : Nat
  bufferOffset : Nat
  maxBufferSize : Nat
deriving DecidableEq, Repr

/-- createBuffer: an empty buffer whose backing store is `maxBufferSize`
zero bytes (calloc); allocation never fails in the model. -/
def createBuffer (maxBufferSize : Nat) : Buffer :=
  { buffer := List.replicate maxBufferSize 0
    bufferSize := 0
    bufferOffset := 0
    maxBufferSize := maxBufferSize }

/-- loadBuffer: first fill of a buffer, reading
`min maxBufferSize (fSize - fTell)` bytes from the file. -/
def loadBuffer (fs : FileState) (buff : Buffer) : Result × FileState × Buffer :=
  let n := min buff.maxBufferSize (fSize fs - fTell fs)
  let (bytes, fs') := fRead fs n
  (Result.RES_OK, fs',
    { buff with bufferSize := n, buffer := bytes ++ buff.buffer.drop bytes.length })

/-- The state threaded through every readBuffer call: the file, the buffer and
the in-out `Result` that the C code passes by address. -/
structure RState where
  fs : FileState
  buff : Buffer
  res : Result
deriving DecidableEq, Repr

/-- readBuffer: return the next byte of the window, advancing `bufferOffset`;
on window exhaustion refill from the file; if the window is empty fail with
`RES_OUT_OF_RANGE` and return the sentinel byte 0. -/
def readBuffer (st : RState) : Nat × RState :=
  if st.buff.bufferSize = 0 then
    (0, { st with res := Result.RES_OUT_OF_RANGE })
  else
    let result := st.buff.buffer.getD st.buff.bufferOffset 0
    let off := st.buff.bufferOffset + 1
    if st.buff.bufferSize ≤ off then
      let n := min st.buff.maxBufferSize (fSize st.fs - fTell st.fs)
      let (bytes, fs') := fRead st.fs n
      (result,
        { fs := fs'
          buff := { st.buff with
                      buffer := bytes ++ st.buff.buffer.drop bytes.length
                      bufferSize := n
                      bufferOffset := 0 }
          res := Result.RES_OK })
    else
      (result, { st with buff := { st.buff with bufferOffset := off } })

/-- MAX_BUFFER_SIZE from patch.c: capacity of every reader the engines open. -/
def MAX_BUFFER_SIZE : Nat := 512

/-- Modelled from the spec: `MAX_ROM_SIZE` (32 MiB), a constant defined in
drivers/lgy.h which is outside src/. -/
def MAX_ROM_SIZE : Nat := 1024 * 1024 * 32

/-- Doubling loop behind `nextPow2`: starting from the power of two `acc`,
double until ≥ n; the fuel only bounds the iteration count. -/
def nextPow2Go (n acc : Nat) : Nat → Nat
  | 0 => acc
  | Nat.succ fuel => if n ≤ acc then acc else nextPow2Go n (2 * acc) fuel

/-- Modelled from the spec: `nextPow2` (util.h, outside src/), the
`nextPowerOfTwo` of the spec: the smallest power of two ≥ the argument
(computed by doubling from 1; `n` rounds of doubling always suffice). -/
def nextPow2 (n : Nat) : Nat := nextPow2Go n 1 n

/-- Sign extension of a 32-bit pattern into a 64-bit pattern: the C's
conversion of a (possibly negative) `int` addend to `uintmax_t`. -/
def sext64 (x : Nat) : Nat := if x < 2 ^ 31 then x else x + (2 ^ 64 - 2 ^ 32)

/-- read_vuint's loop, with fuel standing in for the C `while(1)`: read an
octet; a set high bit marks the terminal octet; otherwise accumulate
`(octet | 0x80) << shift` and continue with `shift + 7`.  The shifted
addends `(octet & 0x7f) << shift` / `(octet | 0x80) << shift` are 32-bit
`int` arithmetic on the ARM target (the octet promotes to int), wrapping on
overflow; the wrapped value is sign-extended when added to the 64-bit
`uintmax_t` accumulator, which itself wraps modulo 2^64. -/
def read_vuint_loop : Nat → RState → Nat → Nat → Nat × RState
  | 0, st, result, _ => (result, st)
  | Nat.succ fuel, st, result, shift =>
    let (octet, st') := readBuffer st
    if st'.res ≠ Result.RES_OK then (result, st')
    else if octet &&& 0x80 ≠ 0 then
      ((result + sext64 (((octet &&& 0x7f) <<< shift) % 2 ^ 32)) % 2 ^ 64, st')
    else read_vuint_loop fuel st'
      ((result + sext64 (((octet ||| 0x80) <<< shift) % 2 ^ 32)) % 2 ^ 64) (shift + 7)

/-- read_vuint: decode one UPS variable-width integer through the buffer.
The fuel `data.length + 1` dominates the number of bytes the file can ever
deliver, so it never runs out before the C loop would have ended. -/
def read_vuint (st : RState) : Nat × RState :=
  read_vuint_loop (st.fs.data.length + 1) st 0 0

/-- Read `n` bytes into a scratch array, stopping early when a read fails
(the `if(res != RES_OK) break;` loops of patch.c).  The bytes collected so
far are returned; callers only use them when the final result is RES_OK. -/
def readBytesBreak (st : RState) : Nat → List Nat × RState
  | 0 => ([], st)
  | Nat.succ n =>
    let (b, st') := readBuffer st
    if st'.res = Result.RES_OK then
      let (rest, st'') := readBytesBreak st' n
      (b :: rest, st'')
    else ([b], st')

/-- Read `n` bytes with no break on failure (the 5-byte magic loop of
patchIPS): every slot is assigned, failed reads storing the sentinel 0. -/
def readBytesNoBreak (st : RState) : Nat → List Nat × RState
  | 0 => ([], st)
  | Nat.succ n =>
    let (b, st') := readBuffer st
    let (rest, st'') := readBytesNoBreak st' n
    (b :: rest, st'')

/-- Overwrite one ROM byte. -/
def romWrite (rom : Nat → Nat) (a v : Nat) : Nat → Nat :=
  fun x => if x = a then v else rom x

/-- memset on the ROM image: fill `len` bytes from `start` with `v`. -/
def memsetRom (rom : Nat → Nat) (start v len : Nat) : Nat → Nat :=
  fun x => if start ≤ x ∧ x < start + len then v else rom x

/-- The literal "PATCH" as bytes. -/
def PATCH_MAGIC : List Nat := [0x50, 0x41, 0x54, 0x43, 0x48]

/-- The literal "EOF" as bytes. -/
def EOF_MAGIC : List Nat := [0x45, 0x4F, 0x46]

/-- The literal "UPS1" as bytes. -/
def UPS_MAGIC : List Nat := [0x55, 0x50, 0x53, 0x31]

/-- The IPS 24-bit offset decode of patch.c line 85:
`(miniBuffer[0]<<16) + (miniBuffer[1]<<8) + (miniBuffer[2])` (bytes are
unsigned chars on the ARM target). -/
def ipsOffset (b0 b1 b2 : Nat) : Nat := (b0 <<< 16) + (b1 <<< 8) + b2

/-- The IPS 16-bit decode of patch.c lines 93 and 103 (hunk length and RLE
run length): `(miniBuffer[0]<<8) + (miniBuffer[1])`. -/
def ipsLen16 (b0 b1 : Nat) : Nat := (b0 <<< 8) + b1

/-- One regular IPS hunk: read `n` bytes, writing each into the ROM at
consecutive addresses from `base`.  The write of the returned byte happens
before the error check, exactly as in the C (`rom[...] = readBuffer(...);
if(res != RES_OK) break;`). -/
def ipsHunkWrite (st : RState) (rom : Nat → Nat) (base : Nat) :
    Nat → RState × (Nat → Nat)
  | 0 => (st, rom)
  | Nat.succ n =>
    let (b, st') := readBuffer st
    let rom' := romWrite rom base b
    if st'.res = Result.RES_OK then ipsHunkWrite st' rom' (base + 1) n
    else (st', rom')

/-- The IPS hunk loop (`while(res == RES_OK)` of patchIPS), with fuel: read a
3-byte offset (stopping on "EOF" or error), a 2-byte length, then either an
RLE hunk (length 0: 2-byte run length and a fill byte, written by memset) or
a regular hunk. -/
def ipsLoop : Nat → RState → (Nat → Nat) → RState × (Nat → Nat)
  | 0, st, rom => (st, rom)
  | Nat.succ fuel, st, rom =>
    if st.res ≠ Result.RES_OK then (st, rom)
    else
      let (mini, st1) := readBytesBreak st 3
      if st1.res ≠ Result.RES_OK ∨ mini = EOF_MAGIC then (st1, rom)
      else
        let offset := ipsOffset (mini.getD 0 0) (mini.getD 1 0) (mini.getD 2 0)
        let (mini2, st2) := readBytesBreak st1 2
        if st2.res ≠ Result.RES_OK then (st2, rom)
        else
          let length := ipsLen16 (mini2.getD 0 0) (mini2.getD 1 0)
          if length = 0 then
            let (mini3, st3) := readBytesBreak st2 3
            if st3.res ≠ Result.RES_OK then (st3, rom)
            else
              let tempLen := ipsLen16 (mini3.getD 0 0) (mini3.getD 1 0)
              ipsLoop fuel st3 (memsetRom rom offset (mini3.getD 2 0) tempLen)
          else
            let (st4, rom') := ipsHunkWrite st2 rom offset length
            ipsLoop fuel st4 rom'

/-- The body of patchIPS after a successful "PATCH" magic check: run the
hunk loop and package its final state. -/
def ipsApply (st1 : RState) (rom : Nat → Nat) (fuel : Nat) :
    Result × FileState × (Nat → Nat) :=
  let l := ipsLoop fuel st1 rom
  (l.1.res, l.1.fs, l.2)

/-- patchIPS: create and fill a 512-byte reader, check the "PATCH" magic
(5 reads with no break, mismatch giving RES_INVALID_PATCH and an untouched
ROM), then run the hunk loop. -/
def patchIPS (fs : FileState) (rom : Nat → Nat) :
    Result × FileState × (Nat → Nat) :=
  let buff := createBuffer MAX_BUFFER_SIZE
  let ld := loadBuffer fs buff
  if ld.1 = Result.RES_OK then
    let t := readBytesNoBreak { fs := ld.2.1, buff := ld.2.2, res := ld.1 } 5
    if t.1 = PATCH_MAGIC then ipsApply t.2 rom (fs.data.length + 1)
    else (Result.RES_INVALID_PATCH, t.2.fs, rom)
  else (ld.1, ld.2.1, rom)

/-- The uintmax_t subtraction `patchFileSize - 12` of patch.c line 224,
performed modulo 2^64. -/
def usub64 (a b : Nat) : Nat := (a + 2 ^ 64 - b) % 2 ^ 64

/-- The UPS growth step (patch.c lines 204-216): when the patched size
exceeds the base size, set `*romSize = nextPow2(patchedRomSize)` (before the
capacity check, so the value sticks even on failure); abort with
RES_INVALID_PATCH when that exceeds MAX_ROM_SIZE; otherwise fill
`[base, newSize)` with 0xFF then `[base, patched)` with 0x00.
Returns (result, rom, romSize). -/
def upsGrow (rom : Nat → Nat) (romSize baseRomSize patchedRomSize : Nat) :
    Result × (Nat → Nat) × Nat :=
  if baseRomSize < patchedRomSize then
    let newSize := nextPow2 patchedRomSize
    if MAX_ROM_SIZE < newSize then (Result.RES_INVALID_PATCH, rom, newSize)
    else
      let rom1 := memsetRom rom baseRomSize 0xFF (newSize - baseRomSize)
      let rom2 := memsetRom rom1 baseRomSize 0x00 (patchedRomSize - baseRomSize)
      (Result.RES_OK, rom2, newSize)
  else (Result.RES_OK, rom, romSize)

/-- One UPS record's XOR run (the `while(offset<*romSize)` loop): read a
byte; 0x00 ends the record after advancing the cursor; any other byte is
XORed into the ROM at the cursor.  Returns (state, rom, cursor). -/
def upsRecordBytes (st : RState) (rom : Nat → Nat) (offset romSize : Nat) :
    RState × (Nat → Nat) × Nat :=
  if offset < romSize then
    let (readByte, st') := readBuffer st
    if st'.res ≠ Result.RES_OK then (st', rom, offset)
    else if readByte = 0 then (st', rom, offset + 1)
    else upsRecordBytes st' (romWrite rom offset (Nat.xor (rom offset) readByte))
      (offset + 1) romSize
  else (st, rom, offset)
termination_by romSize - offset

/-- The UPS record loop (patch.c lines 224-239), with fuel: while the
underlying file position is below `patchFileSize - 12` (uintmax_t
subtraction) and no error is pending, read a varint delta into the running
cursor and apply one XOR run. -/
def upsLoop : Nat → RState → (Nat → Nat) → Nat → Nat → Nat → RState × (Nat → Nat)
  | 0, st, rom, _, _, _ => (st, rom)
  | Nat.succ fuel, st, rom, offset, romSize, patchFileSize =>
    if fTell st.fs < usub64 patchFileSize 12 ∧ st.res = Result.RES_OK then
      let (d, st1) := read_vuint st
      if st1.res ≠ Result.RES_OK then (st1, rom)
      else
        let (st2, rom', offset') := upsRecordBytes st1 rom (offset + d) romSize
        upsLoop fuel st2 rom' offset' romSize patchFileSize
    else (st, rom)

/-- The body of patchUPS after a successful "UPS1" magic check (patch.c
lines 192-241): read the base and patched sizes as varints (cast to u32),
run the growth step, then the record loop, propagating the first error.
Returns (result, file, rom, romSize). -/
def upsApply (st1 : RState) (rom : Nat → Nat) (romSize0 : Nat) :
    Result × FileState × (Nat → Nat) × Option Nat :=
  let r1 := read_vuint st1
  let baseRomSize := r1.1 % 2 ^ 32
  let stA := r1.2
  if stA.res ≠ Result.RES_OK then (stA.res, stA.fs, rom, some romSize0)
  else
    let r2 := read_vuint stA
    let patchedRomSize := r2.1 % 2 ^ 32
    let stB := r2.2
    if stB.res ≠ Result.RES_OK then (stB.res, stB.fs, rom, some romSize0)
    else
      let g := upsGrow rom romSize0 baseRomSize patchedRomSize
      if g.1 ≠ Result.RES_OK then (g.1, stB.fs, g.2.1, some g.2.2)
      else
        let l := upsLoop (stB.fs.data.length + 1) stB g.2.1 0 g.2.2 (fSize stB.fs)
        (l.1.res, l.1.fs, l.2, some g.2.2)

/-- patchUPS: reject a null `romSize` pointer (modelled as `none`) with
RES_INVALID_ARG before doing anything; otherwise create and fill a 512-byte
reader, check the "UPS1" magic (4 reads with break), and on a match hand
over to `upsApply`.  Returns (result, file, rom, romSize). -/
def patchUPS (fs : FileState) (rom : Nat → Nat) (romSize : Option Nat) :
    Result × FileState × (Nat → Nat) × Option Nat :=
  match romSize with
  | none => (Result.RES_INVALID_ARG, fs, rom, none)
  | some romSize0 =>
    let buff := createBuffer MAX_BUFFER_SIZE
    let ld := loadBuffer fs buff
    if ld.1 ≠ Result.RES_OK then (ld.1, ld.2.1, rom, some romSize0)
    else
      let m := readBytesBreak { fs := ld.2.1, buff := ld.2.2, res := ld.1 } 4
      if m.2.res = Result.RES_OK then
        if m.1 = UPS_MAGIC then upsApply m.2 rom romSize0
        else (Result.RES_INVALID_PATCH, m.2.fs, rom, some romSize0)
      else (m.2.res, m.2.fs, rom, some romSize0)

/-- applyPatch: rewind the file, try IPS; on RES_OK or any result other than
RES_INVALID_PATCH, return it (the blocking error-acknowledgement UI of the C
is outside the model); only on RES_INVALID_PATCH rewind again and return the
UPS attempt's result as-is. -/
def applyPatch (fs : FileState) (rom : Nat → Nat) (romSize : Option Nat) :
    Result × FileState × (Nat → Nat) × Option Nat :=
  let fs0 := fLseek fs 0
  let r := patchIPS fs0 rom
  if r.1 = Result.RES_OK then (r.1, r.2.1, r.2.2, romSize)
  else if r.1 ≠ Result.RES_INVALID_PATCH then (r.1, r.2.1, r.2.2, romSize)
  else
    let fs2 := fLseek r.2.1 0
    patchUPS fs2 r.2.2 romSize

/-- Emission loop behind `ups_encode`; the fuel only bounds the number of
octets and is irrelevant once large enough (one division by 128 per octet). -/
def ups_encode_go : Nat → Nat → List Nat
  | _, 0 => []
  | v, Nat.succ fuel =>
    if v / 128 = 0 then [v % 128 + 128]
    else (v % 128) :: ups_encode_go (v / 128 - 1) fuel

/-- Modelled from the spec: the UPS varint encoder of §4.2 (not present in
the repository, which only decodes): 7 payload bits per octet, least
significant group first, the terminal octet pre-biased with its high bit
set, and each continuation step re-biased by one. -/
def ups_encode (v : Nat) : List Nat := ups_encode_go v (v + 1)

/-- Pure decoder mirroring read_vuint's arithmetic (32-bit wrapped addends,
sign-extended) on a plain byte list: returns the sum of the sign-extended
addends (the accumulator before its final reduction modulo 2^64) and the
number of octets consumed, or `none` when the list ends before a terminal
octet. -/
def vuintDecAux : List Nat → Nat → Option (Nat × Nat)
  | [], _ => none
  | o :: rest, shift =>
    if o &&& 0x80 ≠ 0 then some (sext64 (((o &&& 0x7f) <<< shift) % 2 ^ 32), 1)
    else
      match vuintDecAux rest (shift + 7) with
      | none => none
      | some (v, n) => some (sext64 (((o ||| 0x80) <<< shift) % 2 ^ 32) + v, n + 1)

/-- Pure varint decode of the head of a byte list. -/
def vuintDec (l : List Nat) : Option (Nat × Nat) := vuintDecAux l 0

/-- Modelled from the spec: the reference reader for the Buffered Reader's
refinement claim — `n` direct sequential one-byte reads of the file starting
at position `k`, each returning the next byte. -/
def directReads (d : List Nat) (k n : Nat) : List Nat := (d.drop k).take n

/-- The reader state after `createBuffer cap` and one `loadBuffer` on a file
at position 0. -/
def loadedState (cap : Nat) (d : List Nat) : RState :=
  let (res, fs', b') := loadBuffer { data := d, pos := 0 } (createBuffer cap)
  { fs := fs', buff := b', res := res }

/-! ### Buffered reader simulation

`streamInv cap d k st` says the reader state `st` is a faithful window onto
the byte stream `d` with exactly `k` bytes already delivered: the file
position sits `bufferSize - bufferOffset` bytes ahead of the logical cursor
(the prefetch), and the unread window bytes agree with `d` from index `k`. -/

theorem getD_drop (d : List Nat) (p i : Nat) :
    (d.drop p).getD i 0 = d.getD (p + i) 0 := by
  simp [List.getD_eq_getElem?_getD, List.getElem?_drop]

theorem getD_take (d : List Nat) (n i : Nat) (h : i < n) :
    (d.take n).getD i 0 = d.getD i 0 := by
  simp [List.getD_eq_getElem?_getD, List.getElem?_take, h]

structure streamInv (cap : Nat) (d : List Nat) (k : Nat) (st : RState) : Prop where
  capPos : 0 < cap
  data_eq : st.fs.data = d
  maxEq : st.buff.maxBufferSize = cap
  bufLen : st.buff.buffer.length = cap
  sizeLe : st.buff.bufferSize ≤ cap
  offLe : st.buff.bufferOffset ≤ st.buff.bufferSize
  offLt : 0 < st.buff.bufferSize → st.buff.bufferOffset < st.buff.bufferSize
  posLe : st.fs.pos ≤ d.length
  posEq : st.fs.pos = k + (st.buff.bufferSize - st.buff.bufferOffset)
  posMin : min cap d.length ≤ st.fs.pos
  sizeZero : st.buff.bufferSize = 0 → st.fs.pos = d.length
  window : ∀ i, i < st.buff.bufferSize - st.buff.bufferOffset →
    st.buff.buffer.getD (st.buff.bufferOffset + i) 0 = d.getD (k + i) 0

/-- The invariant ignores the `res` field. -/
theorem streamInv_res {cap d k st r} (inv : streamInv cap d k st) :
    streamInv cap d k { st with res := r } := by
  obtain ⟨c1, c2, c3, c4, c5, c6, c7, c8, c9, c10, c11, c12⟩ := inv
  exact ⟨c1, c2, c3, c4, c5, c6, c7, c8, c9, c10, c11, c12⟩

/-- Explicit form of the state after createBuffer + loadBuffer at position 0:
the first `min cap d.length` bytes are resident and the file position has
advanced past them. -/
theorem loadedState_eq (cap : Nat) (d : List Nat) :
    loadedState cap d =
      { fs := { data := d, pos := min cap d.length }
        buff := { buffer := d.take (min cap d.length) ++
                    List.replicate (cap - min cap d.length) 0
                  bufferSize := min cap d.length
                  bufferOffset := 0
                  maxBufferSize := cap }
        res := Result.RES_OK } := by
  simp only [loadedState, loadBuffer, fRead, fSize, fTell, createBuffer, List.drop_zero,
    Nat.sub_zero]
  have hl : (List.take (min cap d.length) d).length = min cap d.length := by
    simp [List.length_take]
  rw [hl, List.drop_replicate, Nat.zero_add]

/-- createBuffer + loadBuffer at file position 0 establish the invariant with
no bytes yet delivered. -/
theorem loadedState_inv (cap : Nat) (hcap : 0 < cap) (d : List Nat) :
    (loadedState cap d).res = Result.RES_OK ∧ streamInv cap d 0 (loadedState cap d) := by
  rw [loadedState_eq]
  refine ⟨rfl, ?_⟩
  refine
    { capPos := hcap
      data_eq := rfl
      maxEq := rfl
      bufLen := by
        dsimp only
        simp only [List.length_append, List.length_take, List.length_replicate]
        omega
      sizeLe := Nat.min_le_left _ _
      offLe := Nat.zero_le _
      offLt := fun h => h
      posLe := Nat.min_le_right _ _
      posEq := by dsimp only; omega
      posMin := le_refl _
      sizeZero := by dsimp only; intro h; omega
      window := by
        intro i hi
        dsimp only at hi ⊢
        simp only [Nat.sub_zero] at hi
        simp only [Nat.zero_add]
        rw [List.getD_append _ _ _ i (by simp only [List.length_take]; omega)]
        rw [getD_take _ _ _ (by omega)] }


/-- Delivering one byte: under the invariant, while logical bytes remain,
readBuffer returns exactly byte `k` of the stream and re-establishes the
invariant at `k + 1`; the result code is either untouched (cache hit) or
RES_OK (refill). -/
theorem readBuffer_val {cap : Nat} {d : List Nat} {k : Nat} {st : RState}
    (inv : streamInv cap d k st) (hk : k < d.length) :
    (readBuffer st).1 = d.getD k 0 ∧ streamInv cap d (k + 1) (readBuffer st).2 ∧
    ((readBuffer st).2.res = st.res ∨ (readBuffer st).2.res = Result.RES_OK) := by
  obtain ⟨capPos, data_eq, maxEq, bufLen, sizeLe, offLe, offLt, posLe, posEq, posMin,
    sizeZero, window⟩ := inv
  have hsize : ¬ st.buff.bufferSize = 0 := by
    intro h0
    have := sizeZero h0
    omega
  have hoff : st.buff.bufferOffset < st.buff.bufferSize := offLt (Nat.pos_of_ne_zero hsize)
  have hval : st.buff.buffer.getD st.buff.bufferOffset 0 = d.getD k 0 := by
    have h0 := window 0 (by omega)
    simpa using h0
  by_cases hrefill : st.buff.bufferSize ≤ st.buff.bufferOffset + 1
  · have hsz : st.buff.bufferSize = st.buff.bufferOffset + 1 := by omega
    have hpos : st.fs.pos = k + 1 := by omega
    have hbytes_len :
        ((st.fs.data.drop st.fs.pos).take
          (min st.buff.maxBufferSize (st.fs.data.length - st.fs.pos))).length =
        min st.buff.maxBufferSize (st.fs.data.length - st.fs.pos) := by
      simp only [List.length_take, List.length_drop]
      omega
    have heq : readBuffer st =
        (st.buff.buffer.getD st.buff.bufferOffset 0,
          { fs := { data := st.fs.data,
                    pos := st.fs.pos +
                      ((st.fs.data.drop st.fs.pos).take
                        (min st.buff.maxBufferSize (st.fs.data.length - st.fs.pos))).length }
            buff := { buffer :=
                        (st.fs.data.drop st.fs.pos).take
                          (min st.buff.maxBufferSize (st.fs.data.length - st.fs.pos)) ++
                          st.buff.buffer.drop
                            ((st.fs.data.drop st.fs.pos).take
                              (min st.buff.maxBufferSize
                                (st.fs.data.length - st.fs.pos))).length
                      bufferSize := min st.buff.maxBufferSize (st.fs.data.length - st.fs.pos)
                      bufferOffset := 0
                      maxBufferSize := st.buff.maxBufferSize }
            res := Result.RES_OK }) := by
      simp only [readBuffer, fRead, fSize, fTell]
      rw [if_neg hsize, if_pos hrefill]
    rw [heq]
    refine ⟨hval, ?_, Or.inr rfl⟩
    refine
      { capPos := capPos
        data_eq := data_eq
        maxEq := maxEq
        bufLen := by
          dsimp only
          simp only [List.length_append, List.length_drop, hbytes_len]
          omega
        sizeLe := by dsimp only; omega
        offLe := Nat.zero_le _
        offLt := fun h => h
        posLe := by dsimp only; rw [hbytes_len, data_eq]; omega
        posEq := by dsimp only; rw [hbytes_len]; omega
        posMin := by dsimp only; rw [hbytes_len, data_eq]; omega
        sizeZero := by dsimp only; rw [hbytes_len, data_eq]; intro h; omega
        window := by
          intro i hi
          dsimp only at hi ⊢
          simp only [Nat.sub_zero] at hi
          simp only [Nat.zero_add]
          rw [data_eq] at hi ⊢
          rw [List.getD_append _ _ _ i
            (by simp only [List.length_take, List.length_drop]; omega)]
          rw [getD_take _ _ _ (by omega), getD_drop]
          have hidx : st.fs.pos + i = k + 1 + i := by omega
          rw [hidx] }
  · have heq : readBuffer st =
        (st.buff.buffer.getD st.buff.bufferOffset 0,
          { st with buff := { st.buff with bufferOffset := st.buff.bufferOffset + 1 } }) := by
      simp only [readBuffer, fRead, fSize, fTell]
      rw [if_neg hsize, if_neg hrefill]
    rw [heq]
    refine ⟨hval, ?_, Or.inl rfl⟩
    refine
      { capPos := capPos
        data_eq := data_eq
        maxEq := maxEq
        bufLen := bufLen
        sizeLe := sizeLe
        offLe := by dsimp only; omega
        offLt := by dsimp only; omega
        posLe := posLe
        posEq := by dsimp only; omega
        posMin := posMin
        sizeZero := by dsimp only; intro h; omega
        window := by
          intro i hi
          dsimp only at hi ⊢
          have h1 : st.buff.bufferOffset + 1 + i = st.buff.bufferOffset + (i + 1) := by omega
          have h2 : k + 1 + i = k + (i + 1) := by omega
          rw [h1, h2]
          exact window (i + 1) (by omega) }

/-- Reading at end of stream: the window is empty, so readBuffer reports
RES_OUT_OF_RANGE, returns the sentinel 0 and leaves file and buffer alone. -/
theorem readBuffer_end {cap : Nat} {d : List Nat} {k : Nat} {st : RState}
    (inv : streamInv cap d k st) (hk : d.length ≤ k) :
    readBuffer st = (0, { st with res := Result.RES_OUT_OF_RANGE }) := by
  obtain ⟨capPos, data_eq, maxEq, bufLen, sizeLe, offLe, offLt, posLe, posEq, posMin,
    sizeZero, window⟩ := inv
  have hsize : st.buff.bufferSize = 0 := by
    by_contra h
    have hoff := offLt (Nat.pos_of_ne_zero h)
    omega
  simp [readBuffer, hsize]

/-- Under the invariant the delivered-byte counter never passes the end of
the stream. -/
theorem streamInv_k_le {cap : Nat} {d : List Nat} {k : Nat} {st : RState}
    (inv : streamInv cap d k st) : k ≤ d.length := by
  have h1 := inv.posEq
  have h2 := inv.posLe
  omega

/-- Splitting the head off the unread remainder of the stream. -/
theorem drop_eq_getD_cons {d : List Nat} {k : Nat} (hk : k < d.length) :
    d.drop k = d.getD k 0 :: d.drop (k + 1) := by
  rw [List.drop_eq_getElem_cons hk]
  congr 1
  rw [List.getD_eq_getElem?_getD, List.getElem?_eq_getElem hk]
  rfl

/-- readBytesBreak with enough stream left: delivers the next `n` bytes of
the stream, keeps RES_OK, and re-establishes the invariant. -/
theorem readBytesBreak_ok :
    ∀ (n : Nat) {cap : Nat} {d : List Nat} {k : Nat} {st : RState},
    streamInv cap d k st → st.res = Result.RES_OK → k + n ≤ d.length →
    ∃ st', readBytesBreak st n = ((d.drop k).take n, st') ∧
      st'.res = Result.RES_OK ∧ streamInv cap d (k + n) st' := by
  intro n
  induction n with
  | zero =>
    intro cap d k st inv hres _
    exact ⟨st, by simp [readBytesBreak], hres, by simpa using inv⟩
  | succ n ih =>
    intro cap d k st inv hres hkn
    obtain ⟨hv, hinv', hres'⟩ := readBuffer_val inv (by omega)
    rcases heq : readBuffer st with ⟨b, st1⟩
    rw [heq] at hv hinv' hres'
    dsimp only at hv hinv' hres'
    have hres1 : st1.res = Result.RES_OK := by
      rcases hres' with h | h
      · rw [h, hres]
      · exact h
    obtain ⟨st', hrec, hres2, hinv2⟩ := ih hinv' hres1 (by omega)
    have hdrop := drop_eq_getD_cons (show k < d.length by omega)
    refine ⟨st', ?_, hres2, ?_⟩
    · simp only [readBytesBreak, heq, hres1, if_pos, hrec]
      rw [hdrop, List.take_succ_cons, hv]
    · have hidx : k + (n + 1) = k + 1 + n := by omega
      rw [hidx]
      exact hinv2

/-- readBytesNoBreak always returns the next stream bytes, padded with the
sentinel 0 for every read past the end of the stream. -/
theorem readBytesNoBreak_bytes :
    ∀ (n : Nat) {cap : Nat} {d : List Nat} {k : Nat} {st : RState},
    streamInv cap d k st →
    (readBytesNoBreak st n).1 =
      (d.drop k).take n ++ List.replicate (k + n - d.length) 0 := by
  intro n
  induction n with
  | zero =>
    intro cap d k st inv
    have hkle := streamInv_k_le inv
    have h0 : k - d.length = 0 := by omega
    simp [readBytesNoBreak, h0]
  | succ n ih =>
    intro cap d k st inv
    by_cases hk : k < d.length
    · obtain ⟨hv, hinv', _⟩ := readBuffer_val inv hk
      rcases heq : readBuffer st with ⟨b, st1⟩
      rw [heq] at hv hinv'
      dsimp only at hv hinv'
      have hdrop := drop_eq_getD_cons hk
      simp only [readBytesNoBreak, heq]
      rw [ih hinv', hdrop, List.take_succ_cons, hv]
      simp only [List.cons_append]
      have hidx : k + 1 + n - d.length = k + (n + 1) - d.length := by omega
      rw [hidx]
    · have hkend : d.length ≤ k := by omega
      have hkeq : k = d.length := by
        have := streamInv_k_le inv
        omega
      have heq := readBuffer_end inv hkend
      have hinv1 : streamInv cap d k { st with res := Result.RES_OUT_OF_RANGE } :=
        streamInv_res inv
      simp only [readBytesNoBreak, heq]
      rw [ih hinv1]
      have hnil : d.drop k = [] := by
        rw [hkeq]
        simp
      rw [hnil]
      have h1 : k + n - d.length = n := by omega
      have h2 : k + (n + 1) - d.length = n + 1 := by omega
      rw [h1, h2]
      simp [List.replicate_succ]

/-- The number of octets a successful pure varint decode consumes: at least
one, at most the whole list. -/
theorem vuintDecAux_le :
    ∀ (l : List Nat) (shift v n : Nat), vuintDecAux l shift = some (v, n) →
      1 ≤ n ∧ n ≤ l.length := by
  intro l
  induction l with
  | nil => intro shift v n h; simp [vuintDecAux] at h
  | cons o rest ih =>
    intro shift v n h
    simp only [vuintDecAux] at h
    by_cases hbit : o &&& 0x80 ≠ 0
    · rw [if_pos hbit] at h
      have : n = 1 := by
        have := (Option.some.injEq _ _).mp h
        have := (Prod.mk.injEq _ _ _ _).mp this
        omega
      simp [this]
    · rw [if_neg hbit] at h
      rcases hrec : vuintDecAux rest (shift + 7) with _ | ⟨w, m⟩
      · rw [hrec] at h
        simp at h
      · rw [hrec] at h
        have hm := ih (shift + 7) w m hrec
        have : n = m + 1 := by
          have := (Option.some.injEq _ _).mp h
          have := (Prod.mk.injEq _ _ _ _).mp this
          omega
        simp only [List.length_cons]
        omega

/-- One unfolding of read_vuint_loop at positive fuel. -/
theorem read_vuint_loop_succ (fuel : Nat) (st : RState) (result shift : Nat) :
    read_vuint_loop (fuel + 1) st result shift =
      if (readBuffer st).2.res ≠ Result.RES_OK then (result, (readBuffer st).2)
      else if (readBuffer st).1 &&& 0x80 ≠ 0 then
        ((result + sext64 ((((readBuffer st).1 &&& 0x7f) <<< shift) % 2 ^ 32)) % 2 ^ 64,
          (readBuffer st).2)
      else read_vuint_loop fuel (readBuffer st).2
        ((result + sext64 ((((readBuffer st).1 ||| 0x80) <<< shift) % 2 ^ 32)) % 2 ^ 64)
        (shift + 7) := rfl

/-- read_vuint's loop agrees with the pure decoder `vuintDecAux` on the
remaining stream, given fuel larger than the remaining byte count. -/
theorem read_vuint_loop_ok :
    ∀ (fuel : Nat) {cap : Nat} {d : List Nat} {k : Nat} {st : RState}
      {r shift v n : Nat},
    streamInv cap d k st → st.res = Result.RES_OK →
    vuintDecAux (d.drop k) shift = some (v, n) → d.length - k < fuel →
    ∃ st', read_vuint_loop fuel st r shift = ((r + v) % 2 ^ 64, st') ∧
      st'.res = Result.RES_OK ∧ streamInv cap d (k + n) st' := by
  intro fuel
  induction fuel with
  | zero => intro cap d k st r shift v n _ _ _ hfuel; omega
  | succ fuel ih =>
    intro cap d k st r shift v n inv hres hdec hfuel
    have hk : k < d.length := by
      by_contra hk
      have hnil : d.drop k = [] := by
        have : d.length ≤ k := by omega
        simp [List.drop_eq_nil_iff.mpr this]
      rw [hnil] at hdec
      simp [vuintDecAux] at hdec
    have hdrop := drop_eq_getD_cons hk
    rw [hdrop] at hdec
    simp only [vuintDecAux] at hdec
    obtain ⟨hv, hinv', hres'⟩ := readBuffer_val inv hk
    rcases heq : readBuffer st with ⟨b, st1⟩
    rw [heq] at hv hinv' hres'
    dsimp only at hv hinv' hres'
    have hres1 : st1.res = Result.RES_OK := by
      rcases hres' with h | h
      · rw [h, hres]
      · exact h
    have hstep := read_vuint_loop_succ fuel st r shift
    rw [heq] at hstep
    dsimp only at hstep
    rw [hres1, hv] at hstep
    rw [if_neg (by simp : ¬ Result.RES_OK ≠ Result.RES_OK)] at hstep
    by_cases hbit : d.getD k 0 &&& 0x80 ≠ 0
    · rw [if_pos hbit] at hstep hdec
      have hvn : v = sext64 (((d.getD k 0 &&& 0x7f) <<< shift) % 2 ^ 32) ∧ n = 1 := by
        have h1 := (Option.some.injEq _ _).mp hdec
        have h2 := (Prod.mk.injEq _ _ _ _).mp h1
        exact ⟨h2.1.symm, h2.2.symm⟩
      refine ⟨st1, ?_, hres1, ?_⟩
      · rw [hstep, hvn.1]
      · rw [hvn.2]
        exact hinv'
    · rw [if_neg hbit] at hstep hdec
      rcases hrec : vuintDecAux (d.drop (k + 1)) (shift + 7) with _ | ⟨w, m⟩
      · rw [hrec] at hdec
        simp at hdec
      · rw [hrec] at hdec
        have hvn : v = sext64 (((d.getD k 0 ||| 0x80) <<< shift) % 2 ^ 32) + w ∧
            n = m + 1 := by
          have h1 := (Option.some.injEq _ _).mp hdec
          have h2 := (Prod.mk.injEq _ _ _ _).mp h1
          exact ⟨h2.1.symm, h2.2.symm⟩
        obtain ⟨st', hloop, hres2, hinv2⟩ :=
          ih (r := (r + sext64 (((d.getD k 0 ||| 0x80) <<< shift) % 2 ^ 32)) % 2 ^ 64)
            hinv' hres1 hrec (by omega)
        refine ⟨st', ?_, hres2, ?_⟩
        · rw [hstep, hloop, hvn.1, Nat.mod_add_mod, Nat.add_assoc]
        · rw [hvn.2]
          have hidx : k + (m + 1) = k + 1 + m := by omega
          rw [hidx]
          exact hinv2

/-- read_vuint agrees with the pure decoder on the remaining stream: the
returned value is the sign-extended addend sum reduced modulo 2^64. -/
theorem read_vuint_ok {cap : Nat} {d : List Nat} {k : Nat} {st : RState} {v n : Nat}
    (inv : streamInv cap d k st) (hres : st.res = Result.RES_OK)
    (hdec : vuintDec (d.drop k) = some (v, n)) :
    ∃ st', read_vuint st = (v % 2 ^ 64, st') ∧ st'.res = Result.RES_OK ∧
      streamInv cap d (k + n) st' := by
  have hdata := inv.data_eq
  obtain ⟨st', hloop, hres', hinv'⟩ :=
    read_vuint_loop_ok (st.fs.data.length + 1) (r := 0) inv hres hdec
      (by rw [hdata]; omega)
  exact ⟨st', by simpa [read_vuint] using hloop, hres', hinv'⟩

/-! ### Varint encoder / decoder round trip -/

/-- A byte below 0x80 has no bit 7. -/
theorem byte_land_80 (x : Nat) (h : x < 128) : x &&& 0x80 = 0 := by
  have h1 := Nat.and_two_pow x 7
  have h2 : x.testBit 7 = false := Nat.testBit_lt_two_pow (by norm_num; omega)
  rw [h2] at h1
  simpa using h1

/-- Setting bit 7 on a byte below 0x80 adds 0x80. -/
theorem byte_lor_80 (x : Nat) (h : x < 128) : x ||| 0x80 = x + 128 := by
  interval_cases x <;> rfl

/-- A pre-biased terminal octet keeps its set bit 7. -/
theorem byte_high_land_80 (x : Nat) (h : x < 128) : (x + 128) &&& 0x80 ≠ 0 := by
  interval_cases x <;> decide

/-- Stripping bit 7 from a pre-biased terminal octet recovers the payload. -/
theorem byte_high_land_7f (x : Nat) (h : x < 128) : (x + 128) &&& 0x7f = x := by
  have h1 : (0x7f : Nat) = 2 ^ 7 - 1 := rfl
  rw [h1, Nat.and_pow_two_sub_one_eq_mod]
  have h2 : (2 : Nat) ^ 7 = 128 := rfl
  rw [h2, Nat.add_mod_right]
  exact Nat.mod_eq_of_lt h

/-- The encoder's fuel is irrelevant once it exceeds the value. -/
theorem ups_encode_go_irrel :
    ∀ (f1 v f2 : Nat), v < f1 → v < f2 →
      ups_encode_go v f1 = ups_encode_go v f2 := by
  intro f1
  induction f1 with
  | zero => intro v f2 h1 _; omega
  | succ f1 ih =>
    intro v f2 h1 h2
    cases f2 with
    | zero => omega
    | succ f2 =>
      simp only [ups_encode_go]
      by_cases h : v / 128 = 0
      · rw [if_pos h, if_pos h]
      · rw [if_neg h, if_neg h]
        congr 1
        exact ih (v / 128 - 1) f2 (by omega) (by omega)

/-- The encoder's defining recurrence. -/
theorem ups_encode_eq (v : Nat) :
    ups_encode v = if v / 128 = 0 then [v % 128 + 128]
      else (v % 128) :: ups_encode (v / 128 - 1) := by
  unfold ups_encode
  simp only [ups_encode_go]
  by_cases h : v / 128 = 0
  · rw [if_pos h, if_pos h]
  · rw [if_neg h, if_neg h]
    congr 1
    exact ups_encode_go_irrel v (v / 128 - 1) (v / 128 - 1 + 1) (by omega) (by omega)

/-- Sign extension is the identity on addends the C's 32-bit int can hold
without overflow. -/
theorem sext64_small {y : Nat} (hy : y < 2 ^ 31) : sext64 (y % 2 ^ 32) = y := by
  rw [Nat.mod_eq_of_lt (by omega : y < 2 ^ 32)]
  unfold sext64
  rw [if_pos hy]

/-- Pure round trip: while the shifted value stays below 2^31, every addend
the decoder forms stays below 2^31 as well (no int overflow), so decoding an
encoded value (followed by anything) returns the value scaled by the shift
and consumes exactly the encoding. -/
theorem vuintDecAux_encode (v : Nat) :
    ∀ (rest : List Nat) (shift : Nat), v <<< shift < 2 ^ 31 →
    vuintDecAux (ups_encode v ++ rest) shift =
      some (v <<< shift, (ups_encode v).length) := by
  induction v using Nat.strong_induction_on with
  | _ v ih =>
    intro rest shift hbound
    rw [Nat.shiftLeft_eq] at hbound
    by_cases h : v / 128 = 0
    · have hvlt : v < 128 := by omega
      have hmod : v % 128 = v := Nat.mod_eq_of_lt hvlt
      rw [ups_encode_eq, if_pos h, hmod]
      simp only [List.cons_append, List.nil_append, vuintDecAux,
        List.length_cons, List.length_nil]
      rw [if_pos (byte_high_land_80 v hvlt), byte_high_land_7f v hvlt]
      rw [sext64_small (by rw [Nat.shiftLeft_eq]; exact hbound)]
    · have hv128 : 128 ≤ v := by omega
      have hrecbound : (v / 128 - 1) <<< (shift + 7) < 2 ^ 31 := by
        rw [Nat.shiftLeft_eq, pow_add]
        calc (v / 128 - 1) * (2 ^ shift * 2 ^ 7)
            = ((v / 128 - 1) * 2 ^ 7) * 2 ^ shift := by ring
          _ ≤ v * 2 ^ shift :=
            Nat.mul_le_mul_right _
              (by simp only [show (2 : Nat) ^ 7 = 128 from rfl]; omega)
          _ < 2 ^ 31 := hbound
      have hrec := ih (v / 128 - 1) (by omega) rest (shift + 7) hrecbound
      have hmodlt : v % 128 < 128 := Nat.mod_lt _ (by omega)
      have haddlt : (v % 128 + 128) <<< shift < 2 ^ 31 := by
        rw [Nat.shiftLeft_eq]
        calc (v % 128 + 128) * 2 ^ shift ≤ v * 2 ^ shift :=
            Nat.mul_le_mul_right _ (by omega)
          _ < 2 ^ 31 := hbound
      rw [ups_encode_eq, if_neg h]
      simp only [List.cons_append, vuintDecAux, List.length_cons]
      rw [if_neg (by simpa using byte_land_80 (v % 128) hmodlt)]
      simp only [List.append_eq]
      rw [hrec]
      dsimp only
      have hsext : sext64 (((v % 128 ||| 0x80) <<< shift) % 2 ^ 32) =
          (v % 128 + 128) <<< shift := by
        rw [byte_lor_80 (v % 128) hmodlt]
        exact sext64_small haddlt
      rw [hsext]
      have harith : ((v % 128 + 128) <<< shift) + ((v / 128 - 1) <<< (shift + 7)) =
          v <<< shift := by
        obtain ⟨e, he⟩ : ∃ e, v / 128 = e + 1 := ⟨v / 128 - 1, by omega⟩
        have hv : v = 128 * (e + 1) + v % 128 := by omega
        rw [he]
        simp only [Nat.add_sub_cancel, Nat.shiftLeft_eq, pow_add]
        conv_rhs => rw [hv]
        ring
      rw [harith]

/-! ### Unfolding lemmas for the engines -/

/-- The explicit value of loadBuffer on a fresh buffer at file position 0. -/
theorem loadBuffer_explicit (cap : Nat) (d : List Nat) :
    loadBuffer { data := d, pos := 0 } (createBuffer cap) =
      (Result.RES_OK, { data := d, pos := min cap d.length },
        { buffer := d.take (min cap d.length) ++
            List.replicate (cap - min cap d.length) 0
          bufferSize := min cap d.length
          bufferOffset := 0
          maxBufferSize := cap }) := by
  simp only [loadBuffer, fRead, fSize, fTell, createBuffer, List.drop_zero, Nat.sub_zero]
  have hl : (List.take (min cap d.length) d).length = min cap d.length := by
    simp [List.length_take]
  rw [hl, List.drop_replicate, Nat.zero_add]

/-- The uintmax_t subtraction agrees with Nat subtraction when it cannot
wrap. -/
theorem usub64_eq {a b : Nat} (hb : b ≤ a) (ha : a < 2 ^ 64) : usub64 a b = a - b := by
  unfold usub64
  have h1 : a + 2 ^ 64 - b = (a - b) + 2 ^ 64 := by omega
  rw [h1, Nat.add_mod_right]
  exact Nat.mod_eq_of_lt (by omega)

/-- One unfolding of the UPS record loop at positive fuel. -/
theorem upsLoop_succ (fuel : Nat) (st : RState) (rom : Nat → Nat)
    (offset romSize patchFileSize : Nat) :
    upsLoop (fuel + 1) st rom offset romSize patchFileSize =
      (if fTell st.fs < usub64 patchFileSize 12 ∧ st.res = Result.RES_OK then
        let (d, st1) := read_vuint st
        if st1.res ≠ Result.RES_OK then (st1, rom)
        else
          let (st2, rom', offset') := upsRecordBytes st1 rom (offset + d) romSize
          upsLoop fuel st2 rom' offset' romSize patchFileSize
      else (st, rom)) := rfl

set_option maxHeartbeats 2000000 in
set_option maxRecDepth 8000 in
/-- Running patchUPS through magic check and the two header varints: for a
file whose first four bytes are "UPS1" and whose following bytes decode as
two varints, the run reaches the growth step with those decoded values, and
the rest of the computation is the growth step followed by the record loop
from the reader state after the header. -/
theorem patchUPS_run {d : List Nat} {base nb patched np : Nat} (rom : Nat → Nat) (rs : Nat)
    (hmagic : d.take 4 = UPS_MAGIC)
    (hb : vuintDec (d.drop 4) = some (base, nb))
    (hp : vuintDec (d.drop (4 + nb)) = some (patched, np)) :
    ∃ stB, stB.res = Result.RES_OK ∧ streamInv MAX_BUFFER_SIZE d (4 + nb + np) stB ∧
      patchUPS { data := d, pos := 0 } rom (some rs) =
        (if (upsGrow rom rs (base % 2 ^ 32) (patched % 2 ^ 32)).1 ≠ Result.RES_OK then
          ((upsGrow rom rs (base % 2 ^ 32) (patched % 2 ^ 32)).1, stB.fs,
            (upsGrow rom rs (base % 2 ^ 32) (patched % 2 ^ 32)).2.1,
            some (upsGrow rom rs (base % 2 ^ 32) (patched % 2 ^ 32)).2.2)
        else
          ((upsLoop (d.length + 1) stB
              (upsGrow rom rs (base % 2 ^ 32) (patched % 2 ^ 32)).2.1 0
              (upsGrow rom rs (base % 2 ^ 32) (patched % 2 ^ 32)).2.2 d.length).1.res,
            (upsLoop (d.length + 1) stB
              (upsGrow rom rs (base % 2 ^ 32) (patched % 2 ^ 32)).2.1 0
              (upsGrow rom rs (base % 2 ^ 32) (patched % 2 ^ 32)).2.2 d.length).1.fs,
            (upsLoop (d.length + 1) stB
              (upsGrow rom rs (base % 2 ^ 32) (patched % 2 ^ 32)).2.1 0
              (upsGrow rom rs (base % 2 ^ 32) (patched % 2 ^ 32)).2.2 d.length).2,
            some (upsGrow rom rs (base % 2 ^ 32) (patched % 2 ^ 32)).2.2)) := by
  obtain ⟨hres0, inv0⟩ := loadedState_inv MAX_BUFFER_SIZE (by decide) d
  have h4 : 4 ≤ d.length := by
    have hlen := congrArg List.length hmagic
    simp [List.length_take, UPS_MAGIC] at hlen
    omega
  obtain ⟨st1, h1eq, h1res, h1inv⟩ := readBytesBreak_ok 4 inv0 hres0 (by omega)
  rw [loadedState_eq] at h1eq
  have h1inv' : streamInv MAX_BUFFER_SIZE d 4 st1 := by simpa using h1inv
  obtain ⟨stA, hAeq, hAres, hAinv⟩ :=
    read_vuint_ok (k := 4) h1inv' h1res (by simpa [vuintDec] using hb)
  obtain ⟨stB, hBeq, hBres, hBinv⟩ :=
    read_vuint_ok (k := 4 + nb) hAinv hAres (by simpa [vuintDec] using hp)
  refine ⟨stB, hBres, hBinv, ?_⟩
  simp only [patchUPS, loadBuffer_explicit]
  rw [if_neg (by simp : ¬ Result.RES_OK ≠ Result.RES_OK)]
  rw [h1eq]
  try dsimp only
  rw [if_pos h1res]
  have hm : (d.drop 0).take 4 = UPS_MAGIC := by
    rw [List.drop_zero, hmagic]
  rw [if_pos hm]
  simp only [upsApply]
  try dsimp only
  rw [hAeq]
  try dsimp only
  rw [hAres, if_neg (by simp : ¬ Result.RES_OK ≠ Result.RES_OK), hBeq]
  try dsimp only
  rw [hBres, if_neg (by simp : ¬ Result.RES_OK ≠ Result.RES_OK)]
  try dsimp only [fSize]
  rw [hBinv.data_eq]
  rw [Nat.mod_mod_of_dvd base ⟨2 ^ 32, by norm_num⟩,
    Nat.mod_mod_of_dvd patched ⟨2 ^ 32, by norm_num⟩]

/-- The doubling loop's result is ≥ n whenever the fuel allows acc to reach
n by doubling. -/
theorem nextPow2Go_ge :
    ∀ (fuel n acc : Nat), n ≤ acc * 2 ^ fuel → n ≤ nextPow2Go n acc fuel := by
  intro fuel
  induction fuel with
  | zero =>
    intro n acc h
    simpa [nextPow2Go] using h
  | succ fuel ih =>
    intro n acc h
    simp only [nextPow2Go]
    by_cases hc : n ≤ acc
    · rw [if_pos hc]
      exact hc
    · rw [if_neg hc]
      refine ih n (2 * acc) ?_
      calc n ≤ acc * 2 ^ (fuel + 1) := h
        _ = 2 * acc * 2 ^ fuel := by ring

/-- nextPow2 never rounds below its argument. -/
theorem nextPow2_ge (n : Nat) : n ≤ nextPow2 n := by
  unfold nextPow2
  refine nextPow2Go_ge n n 1 ?_
  rw [one_mul]
  exact (Nat.lt_two_pow n).le

/-- getD of an all-zero replicate list is 0 at every index. -/
theorem getD_replicate (n i : Nat) : (List.replicate n (0 : Nat)).getD i 0 = 0 := by
  rw [List.getD_eq_getElem?_getD, List.getElem?_replicate]
  by_cases h : i < n <;> simp [h]

/-! ### Claim theorems -/

/-- C9: calling patchUPS with a null romSize pointer returns
RES_INVALID_ARG immediately: the file position is untouched (no byte read)
and the ROM image and romSize are unmodified. -/
theorem C9_null_romSize (fs : FileState) (rom : Nat → Nat) :
    patchUPS fs rom none = (Result.RES_INVALID_ARG, fs, rom, none) := rfl

/-- C5: the dispatcher rewinds and attempts IPS first; it attempts UPS
exactly when the IPS attempt returned RES_INVALID_PATCH (the
not-this-format code), in which case the UPS attempt's result is returned
as-is; any other IPS outcome (RES_OK included) is returned unchanged
without attempting UPS. -/
theorem C5_dispatcher_order (fs : FileState) (rom : Nat → Nat) (romSize : Option Nat) :
    applyPatch fs rom romSize =
      (if (patchIPS (fLseek fs 0) rom).1 = Result.RES_INVALID_PATCH then
        patchUPS (fLseek (patchIPS (fLseek fs 0) rom).2.1 0)
          (patchIPS (fLseek fs 0) rom).2.2 romSize
      else ((patchIPS (fLseek fs 0) rom).1, (patchIPS (fLseek fs 0) rom).2.1,
        (patchIPS (fLseek fs 0) rom).2.2, romSize)) := by
  simp only [applyPatch]
  rcases h : patchIPS (fLseek fs 0) rom with ⟨r1, fs1, rom1⟩
  dsimp only
  rcases r1 <;> simp

/-- C3: the IPS engine decodes its 3 offset bytes as a 24-bit big-endian
value and its 2-byte fields (hunk length and RLE run length, both computed
by `ipsLen16`) as 16-bit big-endian values, for every byte value including
those with the high bit set. -/
theorem C3_ips_big_endian (b0 b1 b2 : Nat) (h0 : b0 < 256) (h1 : b1 < 256)
    (h2 : b2 < 256) :
    ipsOffset b0 b1 b2 = b0 * 65536 + b1 * 256 + b2 ∧
    ipsLen16 b0 b1 = b0 * 256 + b1 := by
  constructor <;> simp [ipsOffset, ipsLen16, Nat.shiftLeft_eq]

/-- Witness for C3 at high-bit byte values (0x80, 0xFF). -/
theorem C3_ips_big_endian_witness :
    ipsOffset 0x80 0xFF 0x80 = 0x80 * 65536 + 0xFF * 256 + 0x80 ∧
    ipsLen16 0x80 0xFF = 0x80 * 256 + 0xFF :=
  C3_ips_big_endian 0x80 0xFF 0x80 (by decide) (by decide) (by decide)

/-- C4 counterexample: at 2^32-1 the round trip fails on the code.  The
encoding of 2^32-1 is the five octets 127 126 126 126 142; its terminal
addend `14 << 28` overflows the 32-bit int, wraps, and is sign-extended
into the 64-bit accumulator, so read_vuint returns 2^64-1, not 2^32-1.
Only the low 32 bits (the u32 cast applied at both call sites) still equal
2^32-1. -/
theorem C4_counterexample :
    ups_encode (2 ^ 32 - 1) = [127, 126, 126, 126, 142] ∧
    (read_vuint (loadedState MAX_BUFFER_SIZE [127, 126, 126, 126, 142])).1 =
      2 ^ 64 - 1 ∧
    2 ^ 64 - 1 ≠ 2 ^ 32 - 1 ∧
    (read_vuint (loadedState MAX_BUFFER_SIZE [127, 126, 126, 126, 142])).1 % 2 ^ 32 =
      2 ^ 32 - 1 := by
  refine ⟨by decide, by decide, by decide, by decide⟩

/-- C4 as amended: encoding an unsigned integer with the spec's varint
scheme and decoding it with read_vuint through a freshly loaded 512-byte
reader yields the original value for every value below 2^31 (in particular
for 0, 1, 127, 128 and 16384, but no longer for 2^32-1, where the 32-bit
int addend wraps). -/
theorem C4_vuint_roundtrip (v : Nat) (rest : List Nat) (hv : v < 2 ^ 31) :
    (read_vuint (loadedState MAX_BUFFER_SIZE (ups_encode v ++ rest))).1 = v := by
  obtain ⟨hres, inv⟩ := loadedState_inv MAX_BUFFER_SIZE (by decide) (ups_encode v ++ rest)
  have hdec : vuintDec ((ups_encode v ++ rest).drop 0) =
      some (v <<< 0, (ups_encode v).length) := by
    rw [List.drop_zero, vuintDec]
    exact vuintDecAux_encode v rest 0 (by simpa [Nat.shiftLeft_eq] using hv)
  obtain ⟨st', heq, _, _⟩ := read_vuint_ok inv hres hdec
  rw [heq]
  have h0 : v <<< 0 = v := by simp [Nat.shiftLeft_eq]
  dsimp only
  rw [h0]
  exact Nat.mod_eq_of_lt (lt_trans hv (by norm_num))

/-- Witness for the amended C4 at 16384 (a three-octet encoding). -/
theorem C4_vuint_roundtrip_witness :
    (read_vuint (loadedState MAX_BUFFER_SIZE (ups_encode 16384 ++ []))).1 = 16384 :=
  C4_vuint_roundtrip 16384 [] (by decide)

/-- C10: reading `n` bytes through the Buffer (createBuffer with any
positive capacity, one loadBuffer, then `n` readBuffer calls) delivers
exactly the bytes that `n` direct sequential one-byte reads of the file
from position 0 deliver; the capacity does not appear in the result. -/
theorem C10_buffer_refines_direct (cap n : Nat) (d : List Nat) (hcap : 0 < cap)
    (hn : n ≤ d.length) :
    (readBytesNoBreak (loadedState cap d) n).1 = directReads d 0 n := by
  obtain ⟨hres, inv⟩ := loadedState_inv cap hcap d
  rw [readBytesNoBreak_bytes n inv]
  have h0 : 0 + n - d.length = 0 := by omega
  rw [h0]
  simp [directReads]

/-- Witness for C10 with capacity 3 (forcing refills) on a 5-byte file. -/
theorem C10_buffer_refines_direct_witness :
    (readBytesNoBreak (loadedState 3 [10, 20, 30, 40, 50]) 4).1 =
      directReads [10, 20, 30, 40, 50] 0 4 :=
  C10_buffer_refines_direct 3 4 [10, 20, 30, 40, 50] (by decide) (by decide)

/-- C6: patchIPS on any file whose first five bytes are not "PATCH" (in
particular any file shorter than five bytes) returns RES_INVALID_PATCH and
returns the ROM image untouched. -/
theorem C6_ips_bad_magic (d : List Nat) (rom : Nat → Nat)
    (hmagic : d.take 5 ≠ PATCH_MAGIC) :
    (patchIPS { data := d, pos := 0 } rom).1 = Result.RES_INVALID_PATCH ∧
    (patchIPS { data := d, pos := 0 } rom).2.2 = rom := by
  obtain ⟨hres0, inv0⟩ := loadedState_inv MAX_BUFFER_SIZE (by decide) d
  have htemp : (readBytesNoBreak (loadedState MAX_BUFFER_SIZE d) 5).1 ≠ PATCH_MAGIC := by
    rw [readBytesNoBreak_bytes 5 inv0, List.drop_zero]
    by_cases h5 : 5 ≤ d.length
    · have h0 : 0 + 5 - d.length = 0 := by omega
      rw [h0]
      simpa using hmagic
    · intro hcontra
      have h4 := congrArg (fun l => l.getD 4 0) hcontra
      dsimp only at h4
      rw [List.getD_append_right _ _ _ _ (by simp [List.length_take]; omega)] at h4
      rw [getD_replicate] at h4
      exact absurd h4 (by decide)
  rw [loadedState_eq] at htemp
  delta patchIPS
  dsimp only
  rw [loadBuffer_explicit]
  dsimp only
  rw [if_pos rfl, if_neg htemp]
  exact ⟨rfl, rfl⟩

/-- Witness for C6 on a six-byte file whose first five bytes are not
"PATCH". -/
theorem C6_ips_bad_magic_witness :
    (patchIPS { data := [0, 1, 2, 3, 4, 5], pos := 0 } (fun _ => 0x55)).1 =
      Result.RES_INVALID_PATCH ∧
    (patchIPS { data := [0, 1, 2, 3, 4, 5], pos := 0 } (fun _ => 0x55)).2.2 =
      (fun _ => 0x55) :=
  C6_ips_bad_magic [0, 1, 2, 3, 4, 5] (fun _ => 0x55) (by decide)

/-- C8: for every file that parses as a UPS patch header (magic plus two
varints) whose decoded patched size does not exceed the decoded base size,
patchUPS leaves the caller's romSize value unchanged, whatever the record
loop then does. -/
theorem C8_ups_shrink_keeps_romSize (d : List Nat) (rom : Nat → Nat)
    (rs base nb patched np : Nat)
    (hmagic : d.take 4 = UPS_MAGIC)
    (hb : vuintDec (d.drop 4) = some (base, nb))
    (hp : vuintDec (d.drop (4 + nb)) = some (patched, np))
    (hle : patched % 2 ^ 32 ≤ base % 2 ^ 32) :
    (patchUPS { data := d, pos := 0 } rom (some rs)).2.2.2 = some rs := by
  obtain ⟨stB, hBres, hBinv, heq⟩ := patchUPS_run rom rs hmagic hb hp
  have hg : upsGrow rom rs (base % 2 ^ 32) (patched % 2 ^ 32) =
      (Result.RES_OK, rom, rs) := by
    unfold upsGrow
    rw [if_neg (by omega)]
  rw [heq, hg]
  dsimp only
  rw [if_neg (by simp : ¬ Result.RES_OK ≠ Result.RES_OK)]

/-- Witness for C8: a minimal UPS file with base = patched = 4 and the 12
reserved trailing bytes; romSize 4 stays 4. -/
theorem C8_ups_shrink_keeps_romSize_witness :
    (patchUPS
        { data := [0x55, 0x50, 0x53, 0x31, 0x84, 0x84, 0, 0, 0, 0, 0, 0, 0, 0, 0, 0, 0, 0],
          pos := 0 } (fun _ => 0xAB) (some 4)).2.2.2 = some 4 :=
  C8_ups_shrink_keeps_romSize
    [0x55, 0x50, 0x53, 0x31, 0x84, 0x84, 0, 0, 0, 0, 0, 0, 0, 0, 0, 0, 0, 0]
    (fun _ => 0xAB) 4 4 1 4 1 (by decide) (by decide) (by decide) (by decide)

/-- C7: for every file that parses as a UPS patch header with patched size
above base size and with rounded-up size within the 32 MiB ceiling, and that
fits inside one 512-byte reader window (so that the position-gated record
loop does not run and the post-growth state is patchUPS's final state, the
empty-record-stream check of the spec), after the growth step romSize is
nextPow2(patched), bytes in [base, patched) read 0x00, and bytes in
[patched, nextPow2 patched) read 0xFF. -/
theorem C7_ups_growth (d : List Nat) (rom : Nat → Nat)
    (rs base nb patched np : Nat)
    (hmagic : d.take 4 = UPS_MAGIC)
    (hb : vuintDec (d.drop 4) = some (base, nb))
    (hp : vuintDec (d.drop (4 + nb)) = some (patched, np))
    (hblt : base < 2 ^ 32) (hplt : patched < 2 ^ 32)
    (hgrow : base < patched) (hcap : nextPow2 patched ≤ MAX_ROM_SIZE)
    (hlen12 : 12 ≤ d.length) (hlen512 : d.length ≤ 512) :
    (patchUPS { data := d, pos := 0 } rom (some rs)).1 = Result.RES_OK ∧
    (patchUPS { data := d, pos := 0 } rom (some rs)).2.2.2 =
      some (nextPow2 patched) ∧
    (∀ a, base ≤ a → a < patched →
      (patchUPS { data := d, pos := 0 } rom (some rs)).2.2.1 a = 0x00) ∧
    (∀ a, patched ≤ a → a < nextPow2 patched →
      (patchUPS { data := d, pos := 0 } rom (some rs)).2.2.1 a = 0xFF) := by
  obtain ⟨stB, hBres, hBinv, heq⟩ := patchUPS_run rom rs hmagic hb hp
  have hbm : base % 2 ^ 32 = base := Nat.mod_eq_of_lt hblt
  have hpm : patched % 2 ^ 32 = patched := Nat.mod_eq_of_lt hplt
  have hple : patched ≤ nextPow2 patched := nextPow2_ge patched
  have hg : upsGrow rom rs (base % 2 ^ 32) (patched % 2 ^ 32) =
      (Result.RES_OK,
        memsetRom (memsetRom rom base 0xFF (nextPow2 patched - base)) base 0x00
          (patched - base),
        nextPow2 patched) := by
    rw [hbm, hpm]
    unfold upsGrow
    rw [if_pos hgrow]
    dsimp only
    rw [if_neg (by omega)]
  have hpos : stB.fs.pos = d.length := by
    have h1 := hBinv.posMin
    have h2 := hBinv.posLe
    have h3 : MAX_BUFFER_SIZE = 512 := rfl
    omega
  have hcond : ¬ (fTell stB.fs < usub64 d.length 12 ∧ stB.res = Result.RES_OK) := by
    rw [usub64_eq hlen12 (by omega)]
    simp only [fTell, hpos]
    intro hc
    omega
  have hloop : upsLoop (d.length + 1) stB
      (memsetRom (memsetRom rom base 0xFF (nextPow2 patched - base)) base 0x00
        (patched - base)) 0 (nextPow2 patched) d.length =
      (stB,
        memsetRom (memsetRom rom base 0xFF (nextPow2 patched - base)) base 0x00
          (patched - base)) := by
    rw [upsLoop_succ, if_neg hcond]
  rw [heq, hg]
  dsimp only
  rw [if_neg (by simp : ¬ Result.RES_OK ≠ Result.RES_OK), hloop]
  refine ⟨hBres, rfl, ?_, ?_⟩
  · intro a ha1 ha2
    simp only [memsetRom]
    rw [if_pos ⟨ha1, by omega⟩]
  · intro a ha1 ha2
    simp only [memsetRom]
    rw [if_neg (by omega), if_pos ⟨by omega, by omega⟩]

/-- Witness for C7: base 4, patched 6, nextPow2 6 = 8 ≤ 32 MiB, an 18-byte
file (header + 12 reserved bytes); checks romSize and the filled bytes at
addresses 4 and 7. -/
theorem C7_ups_growth_witness :
    (patchUPS
        { data := [0x55, 0x50, 0x53, 0x31, 0x84, 0x86, 0, 0, 0, 0, 0, 0, 0, 0, 0, 0, 0, 0],
          pos := 0 } (fun _ => 0xAB) (some 4)).2.2.2 = some (nextPow2 6) ∧
    (patchUPS
        { data := [0x55, 0x50, 0x53, 0x31, 0x84, 0x86, 0, 0, 0, 0, 0, 0, 0, 0, 0, 0, 0, 0],
          pos := 0 } (fun _ => 0xAB) (some 4)).2.2.1 4 = 0x00 ∧
    (patchUPS
        { data := [0x55, 0x50, 0x53, 0x31, 0x84, 0x86, 0, 0, 0, 0, 0, 0, 0, 0, 0, 0, 0, 0],
          pos := 0 } (fun _ => 0xAB) (some 4)).2.2.1 7 = 0xFF := by
  have h := C7_ups_growth
    [0x55, 0x50, 0x53, 0x31, 0x84, 0x86, 0, 0, 0, 0, 0, 0, 0, 0, 0, 0, 0, 0]
    (fun _ => 0xAB) 4 4 1 6 1 (by decide) (by decide) (by decide) (by decide)
    (by decide) (by decide) (by decide) (by decide) (by decide)
  exact ⟨h.2.1, h.2.2.1 4 (by decide) (by decide), h.2.2.2 7 (by decide) (by decide)⟩

/-- C1 counterexample: a valid UPS header with base 4 and patched size 2^26
(64 MiB, whose next power of two exceeds the 32 MiB ceiling).  The claim
says the caller's romSize is identical to its pre-call state and that a
distinct OutOfCapacity outcome is returned; in fact romSize (initially 4)
has been overwritten, and the returned code is RES_INVALID_PATCH — the very
same code a magic mismatch (NotThisFormat) produces, shown here on a
wrong-magic file. -/
theorem C1_counterexample :
    (patchUPS { data := [0x55, 0x50, 0x53, 0x31, 0x84, 0x00, 0x7F, 0x7E, 0x9E], pos := 0 }
        (fun _ => 0) (some 4)).2.2.2 ≠ some 4 ∧
    (patchUPS { data := [0x55, 0x50, 0x53, 0x31, 0x84, 0x00, 0x7F, 0x7E, 0x9E], pos := 0 }
        (fun _ => 0) (some 4)).1 = Result.RES_INVALID_PATCH ∧
    (patchUPS { data := [1, 2, 3, 4], pos := 0 } (fun _ => 0) (some 4)).1 =
      Result.RES_INVALID_PATCH := by
  refine ⟨by decide, by decide, by decide⟩

/-- C1 as amended: when the decoded patched size exceeds the base size and
its next power of two exceeds MAX_ROM_SIZE, patchUPS returns
RES_INVALID_PATCH (the same code as a magic mismatch, not a distinct one),
the ROM image is untouched, but the caller's romSize has been overwritten
with nextPow2(patchedRomSize). -/
theorem C1_oversize_aborts (d : List Nat) (rom : Nat → Nat)
    (rs base nb patched np : Nat)
    (hmagic : d.take 4 = UPS_MAGIC)
    (hb : vuintDec (d.drop 4) = some (base, nb))
    (hp : vuintDec (d.drop (4 + nb)) = some (patched, np))
    (hblt : base < 2 ^ 32) (hplt : patched < 2 ^ 32)
    (hgrow : base < patched) (hover : MAX_ROM_SIZE < nextPow2 patched) :
    (patchUPS { data := d, pos := 0 } rom (some rs)).1 = Result.RES_INVALID_PATCH ∧
    (patchUPS { data := d, pos := 0 } rom (some rs)).2.2.1 = rom ∧
    (patchUPS { data := d, pos := 0 } rom (some rs)).2.2.2 =
      some (nextPow2 patched) := by
  obtain ⟨stB, hBres, hBinv, heq⟩ := patchUPS_run rom rs hmagic hb hp
  have hbm : base % 2 ^ 32 = base := Nat.mod_eq_of_lt hblt
  have hpm : patched % 2 ^ 32 = patched := Nat.mod_eq_of_lt hplt
  have hg : upsGrow rom rs (base % 2 ^ 32) (patched % 2 ^ 32) =
      (Result.RES_INVALID_PATCH, rom, nextPow2 patched) := by
    rw [hbm, hpm]
    unfold upsGrow
    rw [if_pos hgrow]
    dsimp only
    rw [if_pos hover]
  rw [heq, hg]
  dsimp only
  rw [if_pos (by decide : Result.RES_INVALID_PATCH ≠ Result.RES_OK)]
  exact ⟨rfl, rfl, rfl⟩

/-- Witness for the amended C1 at base 4, patched 2^26. -/
theorem C1_oversize_aborts_witness :
    (patchUPS { data := [0x55, 0x50, 0x53, 0x31, 0x84, 0x00, 0x7F, 0x7E, 0x9E], pos := 0 }
        (fun _ => 0) (some 4)).1 = Result.RES_INVALID_PATCH ∧
    (patchUPS { data := [0x55, 0x50, 0x53, 0x31, 0x84, 0x00, 0x7F, 0x7E, 0x9E], pos := 0 }
        (fun _ => 0) (some 4)).2.2.1 = (fun _ => 0) ∧
    (patchUPS { data := [0x55, 0x50, 0x53, 0x31, 0x84, 0x00, 0x7F, 0x7E, 0x9E], pos := 0 }
        (fun _ => 0) (some 4)).2.2.2 = some (nextPow2 67108864) :=
  C1_oversize_aborts [0x55, 0x50, 0x53, 0x31, 0x84, 0x00, 0x7F, 0x7E, 0x9E]
    (fun _ => 0) 4 4 1 67108864 4 (by decide) (by decide) (by decide) (by decide)
    (by decide) (by decide) (by decide)

/-- C2, evaluated at the failing input: the minimal UPS patch of the spec
(base 4, patched 4, one record with delta 0, xor byte 0x01, terminator,
then the 12 reserved bytes — 21 bytes in all) on an all-zero 4-byte ROM.
The claim says byte 0 of the ROM is XORed with 0x01; the code returns
RES_OK with the ROM byte still 0x00, because loadBuffer has already moved
the file position to 21 ≥ fileSize - 12, so the record loop never runs. -/
theorem C2_code_eval :
    (patchUPS
        { data := [0x55, 0x50, 0x53, 0x31, 0x84, 0x84, 0x80, 0x01, 0x00,
                   0, 0, 0, 0, 0, 0, 0, 0, 0, 0, 0, 0], pos := 0 }
        (fun _ => 0) (some 4)).1 = Result.RES_OK ∧
    (patchUPS
        { data := [0x55, 0x50, 0x53, 0x31, 0x84, 0x84, 0x80, 0x01, 0x00,
                   0, 0, 0, 0, 0, 0, 0, 0, 0, 0, 0, 0], pos := 0 }
        (fun _ => 0) (some 4)).2.2.1 0 = 0x00 ∧
    (patchUPS
        { data := [0x55, 0x50, 0x53, 0x31, 0x84, 0x84, 0x80, 0x01, 0x00,
                   0, 0, 0, 0, 0, 0, 0, 0, 0, 0, 0, 0], pos := 0 }
        (fun _ => 0) (some 4)).2.2.2 = some 4 := by
  refine ⟨by decide, by decide, by decide⟩

end OpenAGB
